import Mathlib

/-!
Verification of the `veccentric` 2D vector library.

The development shallowly embeds the library's numeric core:

* `Vecc α` embeds the generic two-component vector `Vecc<T>` of
  `src/vecc.rs`, with one Lean definition per operator `impl` (the four
  ownership variants of each binary operator are embedded separately, one
  definition per `impl` block, so their equivalence is a theorem and not an
  artefact of the embedding).  Rust references to `Copy` data are
  transparent reads, so a borrowed operand is embedded as the value itself.
* `Fecc` embeds `Vecc<f64>` of `src/fecc.rs`.  The `f64` components are
  idealised as real numbers: every arithmetic operation of the source is
  mapped to the corresponding exact operation on `ℝ`, `f64::sqrt` to
  `Real.sqrt`, `f64::cos`/`f64::sin` to `Real.cos`/`Real.sin`, and
  `f64::atan2` to the complex argument (which matches `atan2 y x` on the
  reals, with range `(-π, π]` and value `0` at the origin).  `x.powf(2.0)`
  is squaring for every finite `f64`, and is embedded as `x ^ 2`.
* `Angle` embeds the radian wrapper of `src/angle.rs` together with the
  `Angular` conversion trait (`rad`/`deg`).
* The external random-number generator behind `from_rng`/`from_seed`
  (the `rand` crate, outside this repository) is embedded as an injected
  uniform scalar `u`: each constructor is a function of the scalar the
  generator produced.

The integer instantiation `Vecc<i64>` is embedded as `Vecc ℤ`; Rust's
`i64::%` is the truncating remainder `Int.tmod` (the inputs used below are
far from the overflow edge cases `i64::MIN % -1`).
-/

namespace Veccentric

/-- `Vecc<T>` (src/vecc.rs): generic vector with two public components. -/
structure Vecc (α : Type) where
  x : α
  y : α
deriving DecidableEq

/-- `Vecc::new` (src/vecc.rs). -/
def Vecc.new (x y : α) : Vecc α := ⟨x, y⟩

/-- `Vecc::dot` (src/vecc.rs): `self.x * rhs.x + self.y * rhs.y`. -/
def Vecc.dot [Add α] [Mul α] (a rhs : Vecc α) : α :=
  a.x * rhs.x + a.y * rhs.y

/-- `Vecc::cross` (src/vecc.rs): `self.x * rhs.y - self.y * rhs.x`. -/
def Vecc.cross [Sub α] [Mul α] (a rhs : Vecc α) : α :=
  a.x * rhs.y - a.y * rhs.x

/-- `impl Neg for Vecc<T>` (owned receiver, src/vecc.rs). -/
def Vecc.negO [Neg α] (a : Vecc α) : Vecc α := ⟨-a.x, -a.y⟩

/-- `impl Neg for &Vecc<T>` (borrowed receiver, src/vecc.rs). -/
def Vecc.negB [Neg α] (a : Vecc α) : Vecc α := ⟨-a.x, -a.y⟩

/-- `impl Add<Vecc<T>> for Vecc<T>` (owned & owned, src/vecc.rs). -/
def Vecc.addOO [Add α] (a rhs : Vecc α) : Vecc α := ⟨a.x + rhs.x, a.y + rhs.y⟩

/-- `impl Add<&Vecc<T>> for Vecc<T>` (owned & borrowed, src/vecc.rs). -/
def Vecc.addOB [Add α] (a rhs : Vecc α) : Vecc α := ⟨a.x + rhs.x, a.y + rhs.y⟩

/-- `impl Add<Vecc<T>> for &Vecc<T>` (borrowed & owned, src/vecc.rs). -/
def Vecc.addBO [Add α] (a rhs : Vecc α) : Vecc α := ⟨a.x + rhs.x, a.y + rhs.y⟩

/-- `impl Add<&Vecc<T>> for &Vecc<T>` (borrowed & borrowed, src/vecc.rs). -/
def Vecc.addBB [Add α] (a rhs : Vecc α) : Vecc α := ⟨a.x + rhs.x, a.y + rhs.y⟩

/-- `impl Sub<Vecc<T>> for Vecc<T>` (owned & owned, src/vecc.rs). -/
def Vecc.subOO [Sub α] (a rhs : Vecc α) : Vecc α := ⟨a.x - rhs.x, a.y - rhs.y⟩

/-- `impl Sub<&Vecc<T>> for Vecc<T>` (owned & borrowed, src/vecc.rs). -/
def Vecc.subOB [Sub α] (a rhs : Vecc α) : Vecc α := ⟨a.x - rhs.x, a.y - rhs.y⟩

/-- `impl Sub<Vecc<T>> for &Vecc<T>` (borrowed & owned, src/vecc.rs). -/
def Vecc.subBO [Sub α] (a rhs : Vecc α) : Vecc α := ⟨a.x - rhs.x, a.y - rhs.y⟩

/-- `impl Sub<&Vecc<T>> for &Vecc<T>` (borrowed & borrowed, src/vecc.rs). -/
def Vecc.subBB [Sub α] (a rhs : Vecc α) : Vecc α := ⟨a.x - rhs.x, a.y - rhs.y⟩

/-- `impl Mul<T> for Vecc<T>` (owned & owned, src/vecc.rs): scalar broadcast. -/
def Vecc.mulOO [Mul α] (a : Vecc α) (rhs : α) : Vecc α := ⟨a.x * rhs, a.y * rhs⟩

/-- `impl Mul<&T> for Vecc<T>` (owned & borrowed, src/vecc.rs). -/
def Vecc.mulOB [Mul α] (a : Vecc α) (rhs : α) : Vecc α := ⟨a.x * rhs, a.y * rhs⟩

/-- `impl Mul<T> for &Vecc<T>` (borrowed & owned, src/vecc.rs). -/
def Vecc.mulBO [Mul α] (a : Vecc α) (rhs : α) : Vecc α := ⟨a.x * rhs, a.y * rhs⟩

/-- `impl Mul<&T> for &Vecc<T>` (borrowed & borrowed, src/vecc.rs). -/
def Vecc.mulBB [Mul α] (a : Vecc α) (rhs : α) : Vecc α := ⟨a.x * rhs, a.y * rhs⟩

/-- `impl Div<T> for Vecc<T>` (owned & owned, src/vecc.rs): scalar broadcast. -/
def Vecc.divOO [Div α] (a : Vecc α) (rhs : α) : Vecc α := ⟨a.x / rhs, a.y / rhs⟩

/-- `impl Div<&T> for Vecc<T>` (owned & borrowed, src/vecc.rs). -/
def Vecc.divOB [Div α] (a : Vecc α) (rhs : α) : Vecc α := ⟨a.x / rhs, a.y / rhs⟩

/-- `impl Div<T> for &Vecc<T>` (borrowed & owned, src/vecc.rs). -/
def Vecc.divBO [Div α] (a : Vecc α) (rhs : α) : Vecc α := ⟨a.x / rhs, a.y / rhs⟩

/-- `impl Div<&T> for &Vecc<T>` (borrowed & borrowed, src/vecc.rs). -/
def Vecc.divBB [Div α] (a : Vecc α) (rhs : α) : Vecc α := ⟨a.x / rhs, a.y / rhs⟩

/-- `impl Rem<Vecc<T>> for Vecc<T>` (owned & owned, src/vecc.rs).  The
generic implementation defers to the component type's own `Rem::rem`,
embedded here as the explicit parameter `g` (for `Vecc<i64>` it is the
truncating `Int.tmod`; the `Notf64` bound keeps `f64` out of this path). -/
def Vecc.remOO (g : α → α → α) (a rhs : Vecc α) : Vecc α :=
  ⟨g a.x rhs.x, g a.y rhs.y⟩

/-- `impl Rem<&Vecc<T>> for Vecc<T>` (owned & borrowed, src/vecc.rs). -/
def Vecc.remOB (g : α → α → α) (a rhs : Vecc α) : Vecc α :=
  ⟨g a.x rhs.x, g a.y rhs.y⟩

/-- `impl Rem<Vecc<T>> for &Vecc<T>` (borrowed & owned, src/vecc.rs). -/
def Vecc.remBO (g : α → α → α) (a rhs : Vecc α) : Vecc α :=
  ⟨g a.x rhs.x, g a.y rhs.y⟩

/-- `impl Rem<&Vecc<T>> for &Vecc<T>` (borrowed & borrowed, src/vecc.rs). -/
def Vecc.remBB (g : α → α → α) (a rhs : Vecc α) : Vecc α :=
  ⟨g a.x rhs.x, g a.y rhs.y⟩

/-- `impl Rem<T> for Vecc<T>` (owned & owned, src/vecc.rs): scalar modulus,
again deferring to the component type's `Rem::rem` `g`. -/
def Vecc.remScalarOO (g : α → α → α) (a : Vecc α) (rhs : α) : Vecc α :=
  ⟨g a.x rhs, g a.y rhs⟩

/-- `impl Rem<&T> for Vecc<T>` (owned & borrowed, src/vecc.rs). -/
def Vecc.remScalarOB (g : α → α → α) (a : Vecc α) (rhs : α) : Vecc α :=
  ⟨g a.x rhs, g a.y rhs⟩

/-- `impl Rem<T> for &Vecc<T>` (borrowed & owned, src/vecc.rs). -/
def Vecc.remScalarBO (g : α → α → α) (a : Vecc α) (rhs : α) : Vecc α :=
  ⟨g a.x rhs, g a.y rhs⟩

/-- `impl Rem<&T> for &Vecc<T>` (borrowed & borrowed, src/vecc.rs). -/
def Vecc.remScalarBB (g : α → α → α) (a : Vecc α) (rhs : α) : Vecc α :=
  ⟨g a.x rhs, g a.y rhs⟩

/-- `impl RemAssign<Vecc<T>> for Vecc<T>` (src/vecc.rs): the state of the
receiver after `%=`, deferring to the component `RemAssign` `g`. -/
def Vecc.remAssignVec (g : α → α → α) (a rhs : Vecc α) : Vecc α :=
  ⟨g a.x rhs.x, g a.y rhs.y⟩

/-- `impl RemAssign<T> for Vecc<T>` (src/vecc.rs): the state of the receiver
after `%=` with a scalar. -/
def Vecc.remAssignScalar (g : α → α → α) (a : Vecc α) (rhs : α) : Vecc α :=
  ⟨g a.x rhs, g a.y rhs⟩

/-! ## The floating-point layer: `Fecc = Vecc<f64>` (src/fecc.rs), `f64` idealised as `ℝ`. -/

/-- `Fecc` (src/fecc.rs): `type Fecc = Vecc<f64>`, components idealised as reals. -/
abbrev Fecc : Type := Vecc ℝ

open scoped Classical

/-- Rust `f64 % f64` (`Rem::rem`, truncating `fmod`): `x - m * trunc (x / m)`,
where `trunc` rounds the quotient toward zero. -/
noncomputable def f64Rem (x m : ℝ) : ℝ :=
  x - m * (if 0 ≤ x / m then (⌊x / m⌋ : ℤ) else (⌈x / m⌉ : ℤ))

/-- `f64::rem_euclid` (Rust core, the operation every `Rem` impl in
src/fecc.rs calls): `let r = self % rhs; if r < 0.0 { r + rhs.abs() } else { r }`. -/
noncomputable def remEuclid (x m : ℝ) : ℝ :=
  if f64Rem x m < 0 then f64Rem x m + |m| else f64Rem x m

/-- `Angle` (src/angle.rs): wrapper storing an angle expressed in radians. -/
structure Angle where
  val : ℝ

/-- `impl<T> From<T> for Angle` (src/angle.rs): a bare number is interpreted
as radians. -/
def Angle.ofReal (x : ℝ) : Angle := ⟨x⟩

/-- `Angular::rad` (src/angle.rs): `Angle(f64::from(*self))`. -/
def Angular.rad (x : ℝ) : Angle := ⟨x⟩

/-- `Angular::deg` (src/angle.rs): `Angle(f64::from(*self) * PI / 180.0)`. -/
noncomputable def Angular.deg (x : ℝ) : Angle := ⟨x * Real.pi / 180⟩

/-- `Fecc::zero` (src/fecc.rs). -/
def Fecc.zero : Fecc := ⟨0, 0⟩

/-- `Fecc::is_zero` (src/fecc.rs): `(self.x == 0.0) && (self.y == 0.0)`. -/
def Fecc.is_zero (v : Fecc) : Prop := v.x = 0 ∧ v.y = 0

/-- `Fecc::from_angle` (src/fecc.rs): `(angle.cos(), angle.sin())` after
converting the argument into an `Angle` (here already an `Angle`). -/
noncomputable def Fecc.from_angle (angle : Angle) : Fecc :=
  ⟨Real.cos angle.val, Real.sin angle.val⟩

/-- `Fecc::from_rng` (src/fecc.rs): `let angle = rng.gen::<f64>();
(angle.cos(), angle.sin())`.  The external generator is embedded as the
injected uniform scalar `u` it produced. -/
noncomputable def Fecc.from_rng (u : ℝ) : Fecc :=
  ⟨Real.cos u, Real.sin u⟩

/-- `Fecc::from_seed` (src/fecc.rs): seeds an external generator and then
runs the same body as `from_rng`; `u` is the scalar the seeded generator
produced. -/
noncomputable def Fecc.from_seed (u : ℝ) : Fecc :=
  ⟨Real.cos u, Real.sin u⟩

/-- `Fecc::mag_squared` (src/fecc.rs): `self.x.powf(2.0) + self.y.powf(2.0)`
(`powf(2.0)` is squaring on every finite `f64`). -/
def Fecc.mag_squared (v : Fecc) : ℝ := v.x ^ 2 + v.y ^ 2

/-- `Fecc::mag` (src/fecc.rs): `self.mag_squared().sqrt()`. -/
noncomputable def Fecc.mag (v : Fecc) : ℝ := Real.sqrt (Fecc.mag_squared v)

/-- `Fecc::normalize` (src/fecc.rs): `if self.is_zero() { Fecc::zero() }
else { self / self.mag() }` (the division is the borrowed-&-owned `Div`). -/
noncomputable def Fecc.normalize (v : Fecc) : Fecc :=
  if Fecc.is_zero v then Fecc.zero else Vecc.divBO v (Fecc.mag v)

/-- `Fecc::limit` (src/fecc.rs): `let mag = self.mag(); if mag > limit
{ *self * (limit / mag) } else { *self }`. -/
noncomputable def Fecc.limit (v : Fecc) (l : ℝ) : Fecc :=
  if Fecc.mag v > l then Vecc.mulOO v (l / Fecc.mag v) else v

/-- `Fecc::project` (src/fecc.rs): `if other.is_zero() { *self } else
{ other * self.dot(other) / other.dot(other) }`. -/
noncomputable def Fecc.project (v other : Fecc) : Fecc :=
  if Fecc.is_zero other then v
  else Vecc.divOO (Vecc.mulOO other (Vecc.dot v other)) (Vecc.dot other other)

/-- `Fecc::reflect` (src/fecc.rs): `if normal.is_zero() { *self } else
{ -(self + self.project(normal) * 2.0) }`. -/
noncomputable def Fecc.reflect (v normal : Fecc) : Fecc :=
  if Fecc.is_zero normal then v
  else Vecc.negO (Vecc.addBO v (Vecc.mulOO (Fecc.project v normal) 2))

/-- `Fecc::dist` (src/fecc.rs): `(*self - other).mag()`. -/
noncomputable def Fecc.dist (v other : Fecc) : ℝ := Fecc.mag (Vecc.subOO v other)

/-- `Fecc::dist_squared` (src/fecc.rs): `(*self - other).mag_squared()`. -/
def Fecc.dist_squared (v other : Fecc) : ℝ := Fecc.mag_squared (Vecc.subOO v other)

/-- `Fecc::angle` (src/fecc.rs): `self.y.atan2(self.x)`, embedded as the
complex argument of `x + y·i` (equal to `atan2 y x` on the reals: range
`(-π, π]`, value `0` at the origin). -/
noncomputable def Fecc.angle (v : Fecc) : ℝ := Complex.arg ⟨v.x, v.y⟩

/-- `Fecc::angle_to` (src/fecc.rs): the raw difference of the two angles,
wrapped by `±2π` when it leaves `[-π, π]`. -/
noncomputable def Fecc.angle_to (v other : Fecc) : ℝ :=
  if Fecc.angle other - Fecc.angle v > Real.pi then
    Fecc.angle other - Fecc.angle v - 2 * Real.pi
  else if Fecc.angle other - Fecc.angle v < -Real.pi then
    Fecc.angle other - Fecc.angle v + 2 * Real.pi
  else Fecc.angle other - Fecc.angle v

/-- `impl Rem<Fecc> for Fecc` (owned & owned, src/fecc.rs): component-wise
`f64::rem_euclid`. -/
noncomputable def Fecc.remOO (a rhs : Fecc) : Fecc :=
  ⟨remEuclid a.x rhs.x, remEuclid a.y rhs.y⟩

/-- `impl Rem<&Fecc> for Fecc` (owned & borrowed, src/fecc.rs). -/
noncomputable def Fecc.remOB (a rhs : Fecc) : Fecc :=
  ⟨remEuclid a.x rhs.x, remEuclid a.y rhs.y⟩

/-- `impl Rem<Fecc> for &Fecc` (borrowed & owned, src/fecc.rs). -/
noncomputable def Fecc.remBO (a rhs : Fecc) : Fecc :=
  ⟨remEuclid a.x rhs.x, remEuclid a.y rhs.y⟩

/-- `impl Rem<&Fecc> for &Fecc` (borrowed & borrowed, src/fecc.rs). -/
noncomputable def Fecc.remBB (a rhs : Fecc) : Fecc :=
  ⟨remEuclid a.x rhs.x, remEuclid a.y rhs.y⟩

/-- `impl Rem<f64> for Fecc` (owned & owned, src/fecc.rs): scalar modulus. -/
noncomputable def Fecc.remScalarOO (a : Fecc) (rhs : ℝ) : Fecc :=
  ⟨remEuclid a.x rhs, remEuclid a.y rhs⟩

/-- `impl Rem<&f64> for Fecc` (owned & borrowed, src/fecc.rs). -/
noncomputable def Fecc.remScalarOB (a : Fecc) (rhs : ℝ) : Fecc :=
  ⟨remEuclid a.x rhs, remEuclid a.y rhs⟩

/-- `impl Rem<f64> for &Fecc` (borrowed & owned, src/fecc.rs). -/
noncomputable def Fecc.remScalarBO (a : Fecc) (rhs : ℝ) : Fecc :=
  ⟨remEuclid a.x rhs, remEuclid a.y rhs⟩

/-- `impl Rem<&f64> for &Fecc` (borrowed & borrowed, src/fecc.rs). -/
noncomputable def Fecc.remScalarBB (a : Fecc) (rhs : ℝ) : Fecc :=
  ⟨remEuclid a.x rhs, remEuclid a.y rhs⟩

/-- `impl RemAssign<Fecc> for Fecc` (src/fecc.rs): the state of the receiver
after `%=` with a vector. -/
noncomputable def Fecc.remAssignVec (a rhs : Fecc) : Fecc :=
  ⟨remEuclid a.x rhs.x, remEuclid a.y rhs.y⟩

/-- `impl RemAssign<f64> for Fecc` (src/fecc.rs): the state of the receiver
after `%=` with a scalar. -/
noncomputable def Fecc.remAssignScalar (a : Fecc) (rhs : ℝ) : Fecc :=
  ⟨remEuclid a.x rhs, remEuclid a.y rhs⟩

/-! ## Helper lemmas -/

/-- Range of the embedded `f64::rem_euclid` for a positive modulus. -/
theorem remEuclid_mem (x m : ℝ) (hm : 0 < m) :
    0 ≤ remEuclid x m ∧ remEuclid x m < m := by
  have hx : m * (x / m) = x := by field_simp
  unfold remEuclid f64Rem
  by_cases ht : 0 ≤ x / m
  · rw [if_pos ht]
    have h1 : (⌊x / m⌋ : ℝ) ≤ x / m := Int.floor_le _
    have h2 : x / m < (⌊x / m⌋ : ℝ) + 1 := Int.lt_floor_add_one _
    have hl : m * (⌊x / m⌋ : ℝ) ≤ m * (x / m) := mul_le_mul_of_nonneg_left h1 hm.le
    have hu : m * (x / m) < m * ((⌊x / m⌋ : ℝ) + 1) := (mul_lt_mul_left hm).mpr h2
    rw [if_neg (show ¬x - m * (⌊x / m⌋ : ℝ) < 0 by nlinarith)]
    constructor <;> nlinarith
  · rw [if_neg ht]
    have h1 : x / m ≤ (⌈x / m⌉ : ℝ) := Int.le_ceil _
    have h2 : (⌈x / m⌉ : ℝ) < x / m + 1 := Int.ceil_lt_add_one _
    have hl : m * (x / m) ≤ m * (⌈x / m⌉ : ℝ) := mul_le_mul_of_nonneg_left h1 hm.le
    have hu : m * (⌈x / m⌉ : ℝ) < m * (x / m + 1) := (mul_lt_mul_left hm).mpr h2
    by_cases hr : x - m * (⌈x / m⌉ : ℝ) < 0
    · rw [if_pos hr, abs_of_pos hm]
      constructor <;> nlinarith
    · rw [if_neg hr]
      constructor <;> nlinarith

/-- The concrete Euclidean-modulo value `(-3).rem_euclid(10) = 7`. -/
theorem remEuclid_neg3_ten : remEuclid (-3 : ℝ) 10 = 7 := by
  have ht : ¬(0 ≤ (-3 : ℝ) / 10) := by norm_num
  have hc : ⌈(-3 : ℝ) / 10⌉ = 0 := by
    rw [Int.ceil_eq_zero_iff]
    constructor <;> norm_num
  unfold remEuclid f64Rem
  rw [if_neg ht, hc]
  norm_num

/-- Scaling a vector by a non-negative scalar scales its magnitude. -/
theorem mag_smul_nonneg (v : Fecc) (c : ℝ) (hc : 0 ≤ c) :
    Fecc.mag (Vecc.mulOO v c) = c * Fecc.mag v := by
  unfold Fecc.mag Fecc.mag_squared Vecc.mulOO
  rw [show (v.x * c) ^ 2 + (v.y * c) ^ 2 = c ^ 2 * (v.x ^ 2 + v.y ^ 2) by ring,
    Real.sqrt_mul (sq_nonneg c), Real.sqrt_sq hc]

/-- The embedded `atan2` stays in `(-π, π]`. -/
theorem angle_bounds (v : Fecc) :
    -Real.pi < Fecc.angle v ∧ Fecc.angle v ≤ Real.pi :=
  ⟨Complex.neg_pi_lt_arg _, Complex.arg_le_pi _⟩

/-- The complex number `⟨1, 0⟩` is `1`. -/
theorem mk_one_eq : (⟨1, 0⟩ : ℂ) = 1 := by
  apply Complex.ext <;> simp

/-- The complex number `⟨-1, 0⟩` is `-1`. -/
theorem mk_neg_one_eq : (⟨-1, 0⟩ : ℂ) = -1 := by
  apply Complex.ext <;> simp

/-! ## Claim theorems -/

/-- C1 (counterexample): on the integer-component `Vecc<i64>`, `%` is the
component type's truncating remainder, so `(-3) % 10` is `-3`: it is
negative, not in `[0, 10)` and not `7`, refuting the claim that every
`%`-carrying component type gets the Euclidean modulo. -/
theorem c1_counterexample :
    Vecc.remScalarOO Int.tmod ⟨-3, -3⟩ (10 : ℤ) = ⟨-3, -3⟩ ∧
    ¬(0 ≤ (Vecc.remScalarOO Int.tmod (⟨-3, -3⟩ : Vecc ℤ) 10).x) ∧
    (Vecc.remScalarOO Int.tmod (⟨-3, -3⟩ : Vecc ℤ) 10).x ≠ 7 := by
  refine ⟨?_, ?_, ?_⟩ <;> decide

/-- C1 (amended): the Euclidean-modulo guarantee holds for the `f64` vector
`Fecc`, whose `%`/`%=` implementations (all ownership forms, vector and
scalar modulus) call `f64::rem_euclid`: for a positive modulus component the
result component lies in `[0, m)`, and `(-3) % 10 = 7`.  The generic
`Vecc<T>` `%` instead applies the component type's own `%` (truncating for
integers), so the guarantee does not extend to integer-component vectors. -/
theorem c1_euclid_modulo_amended :
    (∀ x m : ℝ, 0 < m → 0 ≤ remEuclid x m ∧ remEuclid x m < m) ∧
    (∀ a b : Fecc, Fecc.remOO a b = Fecc.remOB a b ∧ Fecc.remOO a b = Fecc.remBO a b ∧
      Fecc.remOO a b = Fecc.remBB a b ∧ Fecc.remOO a b = Fecc.remAssignVec a b) ∧
    (∀ (a : Fecc) (m : ℝ), Fecc.remScalarOO a m = Fecc.remScalarOB a m ∧
      Fecc.remScalarOO a m = Fecc.remScalarBO a m ∧
      Fecc.remScalarOO a m = Fecc.remScalarBB a m ∧
      Fecc.remScalarOO a m = Fecc.remAssignScalar a m) ∧
    (∀ a b : Fecc, 0 < b.x → 0 ≤ (Fecc.remOO a b).x ∧ (Fecc.remOO a b).x < b.x) ∧
    (∀ a b : Fecc, 0 < b.y → 0 ≤ (Fecc.remOO a b).y ∧ (Fecc.remOO a b).y < b.y) ∧
    (∀ (a : Fecc) (m : ℝ), 0 < m →
      (0 ≤ (Fecc.remScalarOO a m).x ∧ (Fecc.remScalarOO a m).x < m) ∧
      (0 ≤ (Fecc.remScalarOO a m).y ∧ (Fecc.remScalarOO a m).y < m)) ∧
    Fecc.remScalarOO ⟨-3, -3⟩ 10 = ⟨7, 7⟩ := by
  refine ⟨remEuclid_mem, fun a b => ⟨rfl, rfl, rfl, rfl⟩, fun a m => ⟨rfl, rfl, rfl, rfl⟩,
    fun a b h => remEuclid_mem _ _ h, fun a b h => remEuclid_mem _ _ h,
    fun a m h => ⟨remEuclid_mem _ _ h, remEuclid_mem _ _ h⟩, ?_⟩
  show (⟨remEuclid (-3) 10, remEuclid (-3) 10⟩ : Fecc) = ⟨7, 7⟩
  rw [remEuclid_neg3_ten]

/-- C2 (counterexample): at `v = (1, 1)` and the non-zero normal
`n = (0, 1)`, `reflect` returns `(-1, -3)`, not the specified
`v - 2·proj_n(v) = (1, -1)`, and it does not preserve the magnitude. -/
theorem c2_counterexample :
    ¬Fecc.is_zero ⟨0, 1⟩ ∧
    Fecc.reflect ⟨1, 1⟩ ⟨0, 1⟩ = ⟨-1, -3⟩ ∧
    Fecc.reflect ⟨1, 1⟩ ⟨0, 1⟩ ≠
      Vecc.subOO ⟨1, 1⟩ (Vecc.mulOO (Fecc.project ⟨1, 1⟩ ⟨0, 1⟩) 2) ∧
    Fecc.mag (Fecc.reflect ⟨1, 1⟩ ⟨0, 1⟩) ≠ Fecc.mag ⟨1, 1⟩ := by
  have hnz : ¬Fecc.is_zero (⟨0, 1⟩ : Fecc) := by
    unfold Fecc.is_zero
    norm_num
  have hproj : Fecc.project ⟨1, 1⟩ ⟨0, 1⟩ = ⟨0, 1⟩ := by
    unfold Fecc.project Vecc.dot Vecc.mulOO Vecc.divOO
    rw [if_neg hnz]
    norm_num
  have hrefl : Fecc.reflect ⟨1, 1⟩ ⟨0, 1⟩ = ⟨-1, -3⟩ := by
    unfold Fecc.reflect
    rw [if_neg hnz, hproj]
    unfold Vecc.negO Vecc.addBO Vecc.mulOO
    norm_num
  refine ⟨hnz, hrefl, ?_, ?_⟩
  · rw [hrefl, hproj]
    unfold Vecc.subOO Vecc.mulOO
    norm_num [Vecc.mk.injEq]
  · rw [hrefl]
    unfold Fecc.mag Fecc.mag_squared
    show Real.sqrt ((-1 : ℝ) ^ 2 + (-3 : ℝ) ^ 2) ≠ Real.sqrt ((1 : ℝ) ^ 2 + (1 : ℝ) ^ 2)
    have h2 : Real.sqrt ((1 : ℝ) ^ 2 + (1 : ℝ) ^ 2) <
        Real.sqrt ((-1 : ℝ) ^ 2 + (-3 : ℝ) ^ 2) := by
      apply Real.sqrt_lt_sqrt <;> norm_num
    exact ne_of_gt h2

/-- C2 (amended): for every non-zero normal `n`, `reflect(v, n)` is
`-(v + 2·proj_n(v))` — the negation of the sum, not the specified
`v - 2·proj_n(v)` — and the two agree exactly when `v` is the zero
vector. -/
theorem c2_reflect_amended (v n : Fecc) (h : ¬Fecc.is_zero n) :
    Fecc.reflect v n = Vecc.negO (Vecc.addBO v (Vecc.mulOO (Fecc.project v n) 2)) ∧
    (Fecc.reflect v n = Vecc.subOO v (Vecc.mulOO (Fecc.project v n) 2) ↔
      Fecc.is_zero v) := by
  have hdef : Fecc.reflect v n =
      Vecc.negO (Vecc.addBO v (Vecc.mulOO (Fecc.project v n) 2)) := by
    unfold Fecc.reflect
    rw [if_neg h]
  refine ⟨hdef, ?_⟩
  rw [hdef]
  unfold Fecc.is_zero Vecc.negO Vecc.addBO Vecc.subOO Vecc.mulOO
  dsimp only
  rw [Vecc.mk.injEq]
  constructor
  · rintro ⟨h1, h2⟩
    constructor <;> linarith
  · rintro ⟨h1, h2⟩
    rw [h1, h2]
    constructor <;> ring

/-- C2 (witness for the amended theorem): the amended statement at
`v = (1, 1)`, `n = (0, 1)`. -/
theorem c2_reflect_amended_witness :
    Fecc.reflect ⟨1, 1⟩ ⟨0, 1⟩ =
      Vecc.negO (Vecc.addBO ⟨1, 1⟩ (Vecc.mulOO (Fecc.project ⟨1, 1⟩ ⟨0, 1⟩) 2)) ∧
    (Fecc.reflect ⟨1, 1⟩ ⟨0, 1⟩ =
      Vecc.subOO ⟨1, 1⟩ (Vecc.mulOO (Fecc.project ⟨1, 1⟩ ⟨0, 1⟩) 2) ↔
      Fecc.is_zero ⟨1, 1⟩) :=
  c2_reflect_amended ⟨1, 1⟩ ⟨0, 1⟩ (by unfold Fecc.is_zero; norm_num)

/-- C3: for addition, subtraction, multiplication by a scalar and division
by a scalar, the four operand-ownership `impl`s of src/vecc.rs denote the
same function: on every pair of logical operands all four forms produce the
same (hence, in the code, bit-identical) result. -/
theorem c3_ownership_variants_agree {α : Type} [Add α] [Sub α] [Mul α] [Div α]
    (a b : Vecc α) (s : α) :
    (Vecc.addOO a b = Vecc.addOB a b ∧ Vecc.addOO a b = Vecc.addBO a b ∧
      Vecc.addOO a b = Vecc.addBB a b) ∧
    (Vecc.subOO a b = Vecc.subOB a b ∧ Vecc.subOO a b = Vecc.subBO a b ∧
      Vecc.subOO a b = Vecc.subBB a b) ∧
    (Vecc.mulOO a s = Vecc.mulOB a s ∧ Vecc.mulOO a s = Vecc.mulBO a s ∧
      Vecc.mulOO a s = Vecc.mulBB a s) ∧
    (Vecc.divOO a s = Vecc.divOB a s ∧ Vecc.divOO a s = Vecc.divBO a s ∧
      Vecc.divOO a s = Vecc.divBB a s) :=
  ⟨⟨rfl, rfl, rfl⟩, ⟨rfl, rfl, rfl⟩, ⟨rfl, rfl, rfl⟩, ⟨rfl, rfl, rfl⟩⟩

/-- C4: `normalize` returns the zero vector on the zero vector (both
components exactly `0`), and otherwise returns `self / self.mag()` with a
non-zero magnitude, so the division branch is never taken with a zero
magnitude coming from a zero vector. -/
theorem c4_normalize (v : Fecc) :
    (Fecc.is_zero v → Fecc.normalize v = Fecc.zero) ∧
    (¬Fecc.is_zero v →
      Fecc.mag v ≠ 0 ∧ Fecc.normalize v = Vecc.divBO v (Fecc.mag v)) := by
  constructor
  · intro h
    unfold Fecc.normalize
    rw [if_pos h]
  · intro h
    have hsq : 0 < Fecc.mag_squared v := by
      rcases not_and_or.mp h with hx | hy
      · have h1 : v.x ^ 2 ≠ 0 := pow_ne_zero 2 hx
        have h2 : 0 < v.x ^ 2 := lt_of_le_of_ne (sq_nonneg _) (Ne.symm h1)
        have h3 : 0 ≤ v.y ^ 2 := sq_nonneg _
        unfold Fecc.mag_squared
        linarith
      · have h1 : v.y ^ 2 ≠ 0 := pow_ne_zero 2 hy
        have h2 : 0 < v.y ^ 2 := lt_of_le_of_ne (sq_nonneg _) (Ne.symm h1)
        have h3 : 0 ≤ v.x ^ 2 := sq_nonneg _
        unfold Fecc.mag_squared
        linarith
    have hmag : 0 < Fecc.mag v := Real.sqrt_pos.mpr hsq
    refine ⟨ne_of_gt hmag, ?_⟩
    unfold Fecc.normalize
    rw [if_neg h]

/-- C5 (counterexample): for `a = (-1, 0)` (angle `π`) and `b = (1, 0)`
(angle `0`), the raw difference is exactly `-π`; neither wrapping branch
fires, so `angle_to` returns `-π`, which is not in the claimed interval
`(-π, π]`. -/
theorem c5_counterexample :
    Fecc.angle_to ⟨-1, 0⟩ ⟨1, 0⟩ = -Real.pi ∧
    Fecc.angle_to ⟨-1, 0⟩ ⟨1, 0⟩ ∉ Set.Ioc (-Real.pi) Real.pi := by
  have ha : Fecc.angle (⟨-1, 0⟩ : Fecc) = Real.pi := by
    unfold Fecc.angle
    rw [show (⟨(⟨-1, 0⟩ : Fecc).x, (⟨-1, 0⟩ : Fecc).y⟩ : ℂ) = -1 from mk_neg_one_eq]
    exact Complex.arg_neg_one
  have hb : Fecc.angle (⟨1, 0⟩ : Fecc) = 0 := by
    unfold Fecc.angle
    rw [show (⟨(⟨1, 0⟩ : Fecc).x, (⟨1, 0⟩ : Fecc).y⟩ : ℂ) = 1 from mk_one_eq]
    exact Complex.arg_one
  have hπ : 0 < Real.pi := Real.pi_pos
  have hval : Fecc.angle_to ⟨-1, 0⟩ ⟨1, 0⟩ = -Real.pi := by
    unfold Fecc.angle_to
    rw [ha, hb]
    rw [if_neg (by linarith), if_neg (by linarith)]
    ring
  refine ⟨hval, ?_⟩
  rw [hval]
  simp [Set.mem_Ioc]

/-- C5 (amended): `angle_to` equals the raw angle difference wrapped by
`-2π` when it exceeds `π` and by `+2π` when it is below `-π`, and its value
always lies in the closed interval `[-π, π]` (the endpoint `-π` is
attainable, so the interval cannot be sharpened to `(-π, π]`). -/
theorem c5_angle_to_amended (a b : Fecc) :
    Fecc.angle_to a b ∈ Set.Icc (-Real.pi) Real.pi ∧
    (Fecc.angle b - Fecc.angle a > Real.pi →
      Fecc.angle_to a b = Fecc.angle b - Fecc.angle a - 2 * Real.pi) ∧
    (Fecc.angle b - Fecc.angle a < -Real.pi →
      Fecc.angle_to a b = Fecc.angle b - Fecc.angle a + 2 * Real.pi) ∧
    (-Real.pi ≤ Fecc.angle b - Fecc.angle a → Fecc.angle b - Fecc.angle a ≤ Real.pi →
      Fecc.angle_to a b = Fecc.angle b - Fecc.angle a) := by
  obtain ⟨ha1, ha2⟩ := angle_bounds a
  obtain ⟨hb1, hb2⟩ := angle_bounds b
  refine ⟨?_, ?_, ?_, ?_⟩
  · unfold Fecc.angle_to
    split_ifs with h1 h2 <;> rw [Set.mem_Icc] <;> constructor <;> linarith
  · intro h
    unfold Fecc.angle_to
    rw [if_pos h]
  · intro h
    unfold Fecc.angle_to
    rw [if_neg (by linarith), if_pos h]
  · intro h1 h2
    unfold Fecc.angle_to
    rw [if_neg (by linarith), if_neg (by linarith)]

/-- C6: reflecting about the zero vector and projecting onto the zero
vector both return the original vector unchanged (the documented identity
fallback): the zero-vector branch is taken and `*self` is returned, so no
failing or non-finite computation is reached. -/
theorem c6_zero_fallback (v : Fecc) :
    Fecc.reflect v Fecc.zero = v ∧ Fecc.project v Fecc.zero = v := by
  have hz : Fecc.is_zero Fecc.zero := ⟨rfl, rfl⟩
  constructor
  · unfold Fecc.reflect
    rw [if_pos hz]
  · unfold Fecc.project
    rw [if_pos hz]

/-- C7 (counterexample): with `v = (1, 0)` and the negative limit `L = -1`,
the magnitude `1` exceeds `L`, and `limit` returns `(-1, 0)`, whose
magnitude is `1`, not `L`: the scaled branch does not produce magnitude
exactly `L` when `L` is negative. -/
theorem c7_counterexample :
    Fecc.mag ⟨1, 0⟩ > (-1 : ℝ) ∧
    Fecc.limit ⟨1, 0⟩ (-1) = ⟨-1, 0⟩ ∧
    Fecc.mag (Fecc.limit ⟨1, 0⟩ (-1)) ≠ -1 := by
  have hm : Fecc.mag (⟨1, 0⟩ : Fecc) = 1 := by
    unfold Fecc.mag Fecc.mag_squared
    norm_num
  have h1 : Fecc.mag (⟨1, 0⟩ : Fecc) > (-1 : ℝ) := by rw [hm]; norm_num
  have hlim : Fecc.limit ⟨1, 0⟩ (-1) = ⟨-1, 0⟩ := by
    unfold Fecc.limit
    rw [if_pos h1, hm]
    unfold Vecc.mulOO
    norm_num
  refine ⟨h1, hlim, ?_⟩
  rw [hlim]
  unfold Fecc.mag Fecc.mag_squared
  norm_num

/-- C7 (amended): when the magnitude of `v` exceeds `L`, `limit` returns
`v` scaled by `L / mag(v)`, and for a non-negative `L` the result's
magnitude is exactly `L` (for a negative `L` the counterexample shows the
magnitude is `-L`); when `mag(v) ≤ L` the vector is returned unchanged. -/
theorem c7_limit_amended (v : Fecc) (l : ℝ) :
    (Fecc.mag v > l → Fecc.limit v l = Vecc.mulOO v (l / Fecc.mag v)) ∧
    (0 ≤ l → Fecc.mag v > l → Fecc.mag (Fecc.limit v l) = l) ∧
    (Fecc.mag v ≤ l → Fecc.limit v l = v) := by
  refine ⟨?_, ?_, ?_⟩
  · intro h
    unfold Fecc.limit
    rw [if_pos h]
  · intro h0 h
    have hmv : 0 < Fecc.mag v := lt_of_le_of_lt h0 h
    have hc : 0 ≤ l / Fecc.mag v := div_nonneg h0 hmv.le
    unfold Fecc.limit
    rw [if_pos h, mag_smul_nonneg v _ hc]
    exact div_mul_cancel₀ l (ne_of_gt hmv)
  · intro h
    unfold Fecc.limit
    rw [if_neg (not_lt.mpr h)]

/-- C8: the degrees construction path stores `x · π / 180` while the
radians path stores `x` unchanged, and for every bare number `x ≠ 0` the
two paths produce different `Angle` values (at `0` they agree). -/
theorem c8_rad_deg_paths (x : ℝ) :
    (Angular.deg x).val = x * Real.pi / 180 ∧
    (Angular.rad x).val = x ∧
    (x ≠ 0 → Angular.rad x ≠ Angular.deg x) := by
  refine ⟨rfl, rfl, ?_⟩
  intro hx h
  have h1 : x = x * Real.pi / 180 := congrArg Angle.val h
  have hpi : Real.pi < 180 := by linarith [Real.pi_le_four]
  have h3 : x * (180 - Real.pi) = 0 := by linear_combination 180 * h1
  rcases mul_eq_zero.mp h3 with h4 | h4
  · exact hx h4
  · linarith

/-- C9: the random-direction constructors use the injected uniform scalar
`u ∈ [0, 1)` directly as an angle in radians — they equal
`from_angle(u)` — and `u` is not rescaled by `2π` first (at `u = 1/2` the
vector differs from `from_angle(2π · 1/2)`). -/
theorem c9_from_random :
    (∀ u : ℝ, 0 ≤ u → u < 1 →
      Fecc.from_rng u = Fecc.from_angle (Angle.ofReal u) ∧
      Fecc.from_seed u = Fecc.from_angle (Angle.ofReal u)) ∧
    Fecc.from_rng (1 / 2) ≠ Fecc.from_angle (Angle.ofReal (2 * Real.pi * (1 / 2))) := by
  refine ⟨fun u _ _ => ⟨rfl, rfl⟩, ?_⟩
  intro h
  have hx : Real.cos (1 / 2) = Real.cos (2 * Real.pi * (1 / 2)) := congrArg Vecc.x h
  have hπ : 3 < Real.pi := Real.pi_gt_three
  have hc : 0 < Real.cos (1 / 2) :=
    Real.cos_pos_of_mem_Ioo (Set.mem_Ioo.mpr ⟨by linarith, by linarith⟩)
  have hv : Real.cos (2 * Real.pi * (1 / 2)) = -1 := by
    rw [show 2 * Real.pi * (1 / 2 : ℝ) = Real.pi by ring, Real.cos_pi]
  rw [hv] at hx
  linarith

/-- C10: `dist` and `dist_squared` are symmetric in their arguments:
swapping the operands only negates the component-wise differences before
they are squared, so both distances agree exactly. -/
theorem c10_dist_symm (a b : Fecc) :
    Fecc.dist a b = Fecc.dist b a ∧
    Fecc.dist_squared a b = Fecc.dist_squared b a := by
  have h : Fecc.mag_squared (Vecc.subOO a b) = Fecc.mag_squared (Vecc.subOO b a) := by
    unfold Fecc.mag_squared Vecc.subOO
    ring
  constructor
  · unfold Fecc.dist Fecc.mag
    rw [h]
  · unfold Fecc.dist_squared
    rw [h]

end Veccentric
